import Mathlib

/-!
Verification of the `block_crawler.py` ingestion pipeline.

The development shallowly embeds the program in Lean 4:

* `TransactionRecord` is the row persisted to the `Transactions` table;
  `RawTransaction` / `RawBlock` are the shapes returned by the RPC client.
* `insertOrIgnore` embeds the `INSERT OR IGNORE INTO Transactions` statement
  (with the table keyed uniquely on `hash`).
* `fromWeiEther` embeds `str(w3.from_wei(tx['value'], 'ether'))`: exact
  arbitrary-precision decimal division by 10^18 and Python `Decimal`
  string rendering (plain or scientific form).
* `fetch_transactions` embeds the per-block fetch / extract / insert / commit
  loop, with fetch failures and store-write failures injected through oracles
  and SQLite's commit/close-discards-pending durability semantics made
  explicit in `LoopSt`.
* `is_valid_blocks_range`, `is_valid_db_path`, `is_valid_endpoint` and
  `mainAfterArgs` embed the command-line validation stage, and `argLoopRun`
  embeds the `while True` argument-count loop.
-/

/-- A persisted row of the `Transactions` table: the values bound into the
`INSERT OR IGNORE INTO Transactions VALUES (?, ?, ?, ?)` statement, namely
`(tx.hash.hex(), tx.blockNumber, str(w3.from_wei(tx['value'], 'ether')),
block.timestamp)`. Hashes are carried in their canonical hex form. -/
structure TransactionRecord where
  hash : String
  blockNumber : Int
  valueEther : String
  blockTimestamp : Nat
deriving DecidableEq, Repr

/-- The shape of one entry of `block.transactions` as the RPC client returns
it: the transaction's hash (kept in hex form), its own `blockNumber` field and
its `value` in wei. -/
structure RawTransaction where
  hash : String
  blockNumber : Int
  valueWei : Nat
deriving DecidableEq, Repr

/-- The shape of `w3.eth.get_block(n, True)`: block number, unix timestamp and
the inlined transaction list. -/
structure RawBlock where
  number : Int
  timestamp : Nat
  transactions : List RawTransaction
deriving DecidableEq, Repr

/-- Modelled from the spec: the repository's `schema.sql` is not under `src/`;
per the spec's schema contract the `Transactions` table holds
`TransactionRecord` rows keyed uniquely by `hash`.  `insertOrIgnore` is the
effect of `INSERT OR IGNORE` on such a table: a row whose `hash` is already
present is dropped without error, otherwise the row is appended. -/
def insertOrIgnore (rows : List TransactionRecord) (r : TransactionRecord) :
    List TransactionRecord :=
  if rows.any (fun q => q.hash == r.hash) then rows else rows ++ [r]

/-! ## Rendering wei as an ether decimal string

`str(w3.from_wei(v, 'ether'))` computes `Decimal(v) / Decimal(10**18)` with
999 digits of working precision (exact for every value `from_wei` accepts,
since dividing by a power of ten only shifts the decimal exponent) and renders
the result with `decimal.Decimal.__str__`: trailing zeros of the coefficient
are removed down to the ideal exponent 0, and the number is printed in plain
decimal notation when the adjusted exponent is at least -6, in scientific
notation otherwise.  `from_wei(0, 'ether')` returns the int `0`. -/

/-- The decimal digits of `n`, most significant first, with explicit fuel
(any fuel of at least `n - 1` is exhaustive). -/
def natDigitsF : Nat → Nat → List Nat
  | 0, n => [n % 10]
  | f + 1, n => if n < 10 then [n] else natDigitsF f (n / 10) ++ [n % 10]

/-- The decimal digits of `n`, most significant first. -/
def natDigits (n : Nat) : List Nat :=
  natDigitsF n n

/-- The numeric value of a most-significant-first digit list. -/
def digitsVal (ds : List Nat) : Nat :=
  ds.foldl (fun a d => 10 * a + d) 0

/-- The character of one decimal digit. -/
def digitChar (d : Nat) : Char :=
  Char.ofNat (48 + d)

/-- The characters of a digit list. -/
def dChars (ds : List Nat) : List Char :=
  ds.map digitChar

/-- Remove up to `fuel` trailing zero digits from `v`: the reduction of the
`Decimal` coefficient toward the ideal exponent 0 removes at most 18 trailing
zeros when dividing by `10^18`.  Returns the reduced coefficient and how many
zeros were removed. -/
def stripTrail : Nat → Nat → Nat × Nat
  | 0, v => (v, 0)
  | fuel + 1, v =>
    if v % 10 = 0 then
      let p := stripTrail fuel (v / 10)
      (p.1, p.2 + 1)
    else (v, 0)

/-- `Decimal.__str__` on the reduced value `C * 10^(-negE)`: plain notation
when the adjusted exponent `nd - 1 - negE` is at least `-6` (`nd` the
coefficient's digit count), inserting the decimal point or left-padding with
zeros, and otherwise scientific notation `d.dddE-k`. -/
def renderCoeff (C negE : Nat) : List Char :=
  let ds := natDigits C
  if negE = 0 then dChars ds
  else if negE ≤ ds.length + 5 then
    if negE < ds.length then
      dChars (ds.take (ds.length - negE)) ++ '.' :: dChars (ds.drop (ds.length - negE))
    else
      '0' :: '.' :: dChars (List.replicate (negE - ds.length) 0 ++ ds)
  else
    (if ds.length = 1 then dChars ds else dChars (ds.take 1) ++ '.' :: dChars (ds.drop 1))
      ++ 'E' :: '-' :: dChars (natDigits (negE + 1 - ds.length))

/-- The characters of `str(w3.from_wei(v, 'ether'))`.  For `v = 0` the Python
value is the int `0`.  Otherwise the exact quotient `v / 10^18` has reduced
coefficient `C` and exponent `-(18 - t)` where `(C, t) = stripTrail 18 v`,
and is rendered by `Decimal.__str__`. -/
def fromWeiChars (v : Nat) : List Char :=
  if v = 0 then ['0']
  else renderCoeff (stripTrail 18 v).1 (18 - (stripTrail 18 v).2)

/-- `str(w3.from_wei(v, 'ether'))`, the string stored in the `valueEther`
column. -/
def fromWeiEther (v : Nat) : String :=
  String.mk (fromWeiChars v)

/-- The record built for one transaction of a block: the tuple bound into the
`INSERT` statement at line 59-60 of `block_crawler.py`. -/
def recordOfTx (blockTimestamp : Nat) (tx : RawTransaction) : TransactionRecord :=
  { hash := tx.hash
    blockNumber := tx.blockNumber
    valueEther := fromWeiEther tx.valueWei
    blockTimestamp := blockTimestamp }

/-- The records the inner `for tx in block.transactions` loop derives from one
raw block, in transaction order. -/
def extract (b : RawBlock) : List TransactionRecord :=
  b.transactions.map (recordOfTx b.timestamp)

/-! ## The ingestion loop

`fetch_transactions` iterates `range(start, end + 1)`, fetching each block,
inserting its transactions and committing once per block, inside one
`try/except/finally` whose `finally` closes the connection (discarding any
uncommitted rows).  Failures of the external world are injected through two
oracles: `fetch n = none` means `w3.eth.get_block(n, True)` raises, and
`wfail n = some j` means the `cursor.execute` for the `j`-th transaction of
block `n` raises. -/

/-- The visible state of the SQLite connection plus the loop's observable
trace: `durable` are the committed rows (what survives `conn.close()`),
`view` the rows as the open connection sees them (including the current
uncommitted transaction), `commits` counts `conn.commit()` calls and
`fetched` lists the block numbers passed to `w3.eth.get_block`. -/
structure LoopSt where
  durable : List TransactionRecord
  view : List TransactionRecord
  commits : Nat
  fetched : List Int
deriving DecidableEq, Repr

/-- How the loop ended: the whole range processed, an exception caught while
on block `n`, or the pre-loop connectivity check failed. -/
inductive RunOutcome where
  | completed : RunOutcome
  | aborted : Int → RunOutcome
  | unreachable : RunOutcome
deriving DecidableEq, Repr

/-- Insert the records of one block's transactions into the connection's view,
one `cursor.execute('INSERT OR IGNORE ...')` per transaction; `wf = some j`
makes the `j`-th execute raise (counting from `i`), leaving the earlier
uncommitted inserts in the view.  Returns the new view and whether all
inserts succeeded. -/
def insertTxs (wf : Option Nat) (ts : Nat) :
    List RawTransaction → Nat → List TransactionRecord → List TransactionRecord × Bool
  | [], _, view => (view, true)
  | tx :: rest, i, view =>
    if wf = some i then (view, false)
    else insertTxs wf ts rest (i + 1) (insertOrIgnore view (recordOfTx ts tx))

/-- The `for block_no in range(start, end + 1)` body over the remaining block
numbers: fetch the block (abort on a raised fetch), insert its transactions
(abort on a raised execute), then `conn.commit()` and continue. -/
def runBlocks (fetch : Int → Option RawBlock) (wfail : Int → Option Nat) :
    List Int → LoopSt → LoopSt × RunOutcome
  | [], st => (st, .completed)
  | n :: rest, st =>
    let st1 : LoopSt := { st with fetched := st.fetched ++ [n] }
    match fetch n with
    | none => (st1, .aborted n)
    | some b =>
      match insertTxs (wfail n) b.timestamp b.transactions 0 st1.view with
      | (view1, false) => ({ st1 with view := view1 }, .aborted n)
      | (view1, true) =>
        runBlocks fetch wfail rest
          { durable := view1, view := view1, commits := st1.commits + 1,
            fetched := st1.fetched }

/-- Python's `range(s, s + n)` as a list of ints. -/
def pyRange : Int → Nat → List Int
  | _, 0 => []
  | s, n + 1 => s :: pyRange (s + 1) n

/-- The block numbers `range(start, end + 1)` visits. -/
def blockNos (start endB : Int) : List Int :=
  pyRange start (endB + 1 - start).toNat

/-- What a run of `fetch_transactions` leaves behind. -/
structure FetchOutput where
  durable : List TransactionRecord
  commits : Nat
  fetched : List Int
  outcome : RunOutcome
deriving DecidableEq, Repr

/-- The embedding of `fetch_transactions(start, end, db_path, endpoint)`:
if `w3.is_connected()` is false the function prints and returns before
`sqlite3.connect`, touching nothing; otherwise it runs the block loop over
`range(start, end + 1)` starting from the store's current rows `db0`, and the
`finally` close makes exactly the committed rows the store's final content. -/
def fetch_transactions (connected : Bool) (fetch : Int → Option RawBlock)
    (wfail : Int → Option Nat) (start endB : Int)
    (db0 : List TransactionRecord) : FetchOutput :=
  if connected then
    let p := runBlocks fetch wfail (blockNos start endB) ⟨db0, db0, 0, []⟩
    ⟨p.1.durable, p.1.commits, p.1.fetched, p.2⟩
  else ⟨db0, 0, [], .unreachable⟩

/-! ## Range validation -/

/-- Python's whitespace test on ASCII input: the characters `str.strip` and
`int` remove around a number.  (CPython also strips non-ASCII unicode spaces;
command-line tokens are ASCII.) -/
def pyWhite (c : Char) : Bool :=
  c = ' ' || c = '\t' || c = '\n' || c = '\r' || c = '\x0b' || c = '\x0c'

/-- Strip surrounding whitespace from a character list. -/
def pyStrip (cs : List Char) : List Char :=
  ((cs.dropWhile pyWhite).reverse.dropWhile pyWhite).reverse

/-- Python `str.split('-')`: the maximal runs between (every) `'-'`; the empty
string splits to one empty token. -/
def pySplitDash : List Char → List (List Char)
  | [] => [[]]
  | c :: rest =>
    if c = '-' then [] :: pySplitDash rest
    else
      match pySplitDash rest with
      | [] => [[c]]
      | t :: ts => (c :: t) :: ts

/-- Python `int` on the part after the sign: at least one ASCII digit, single
underscores allowed between digits. -/
def pyDigitsRest : List Char → Nat → Option Nat
  | [], acc => some acc
  | '_' :: c :: cs, acc =>
    if c.isDigit then pyDigitsRest cs (10 * acc + (c.toNat - 48)) else none
  | c :: cs, acc =>
    if c.isDigit then pyDigitsRest cs (10 * acc + (c.toNat - 48)) else none

/-- A nonempty digit group (underscores between digits allowed). -/
def pyDigits : List Char → Option Nat
  | [] => none
  | c :: cs => if c.isDigit then pyDigitsRest cs (c.toNat - 48) else none

/-- Python `int(token)`: strip surrounding whitespace, optional `+`/`-` sign,
then a digit group; `none` when `int` raises `ValueError`. -/
def pyIntChars (cs : List Char) : Option Int :=
  match pyStrip cs with
  | '+' :: rest => (pyDigits rest).map Int.ofNat
  | '-' :: rest => (pyDigits rest).map (fun n => -(n : Int))
  | rest => (pyDigits rest).map Int.ofNat

/-- Python `int(s)` for a string. -/
def pyInt (s : String) : Option Int :=
  pyIntChars s.data

/-- The embedding of `is_valid_blocks_range(blocks)`: split on `'-'`, convert
both parts with `int`, check `start <= end`; any `ValueError` (a part that is
not an int, or not exactly two parts to unpack) yields `None`. -/
def is_valid_blocks_range (blocks : String) : Option (Int × Int) :=
  match pySplitDash blocks.data with
  | [a, b] =>
    match pyIntChars a, pyIntChars b with
    | some x, some y => if x ≤ y then some (x, y) else none
    | _, _ => none
  | _ => none

/-! ## The argument-count loop -/

/-- The state of the `while True` loop at line 156: still looping having
printed the usage message `printed` times, or broken out toward validation. -/
inductive ArgLoopSt where
  | looping : Nat → ArgLoopSt
  | broke : Nat → ArgLoopSt
deriving DecidableEq, Repr

/-- One iteration of the loop: with exactly four entries in `sys.argv` it
breaks, otherwise it prints the two usage lines and loops again. -/
def argLoopStep (argc : Nat) : ArgLoopSt → ArgLoopSt
  | .broke p => .broke p
  | .looping p => if argc = 4 then .broke p else .looping (p + 1)

/-- The loop's state after `n` iterations. -/
def argLoopRun (argc : Nat) : Nat → ArgLoopSt
  | 0 => .looping 0
  | n + 1 => argLoopStep argc (argLoopRun argc n)

/-! ## Reading an ether string back as wei

`etherStrToWei` parses exactly the grammar `fromWeiEther` emits (plain and
scientific `Decimal` strings) and recovers the wei value.  Its round trip
with `fromWeiEther` is the formal content of "rendered with no precision
loss": the stored string determines the original integer wei value. -/

/-- The longest leading run of ASCII digits of a character list, as digit
values, together with the rest. -/
def takeDigits : List Char → List Nat × List Char
  | [] => ([], [])
  | c :: cs =>
    if c.isDigit then ((c.toNat - 48) :: (takeDigits cs).1, (takeDigits cs).2)
    else ([], c :: cs)

/-- Parse the exponent digits after `E-` of a scientific ether string:
mantissa value `base` with `shift` fraction digits, wei value
`base * 10 ^ (18 - (exponent + shift))`. -/
def parseExp (base : Nat) (shift : Nat) (r4 : List Char) : Option Nat :=
  match takeDigits r4 with
  | (ke, r6) =>
    if r6 = [] then
      if ke = [] ∨ 18 < digitsVal ke + shift then none
      else some (base * 10 ^ (18 - (digitsVal ke + shift)))
    else none

/-- Parse the characters of an ether decimal string (the forms
`Decimal.__str__` produces for a value in `[0, 2^256) / 10^18`) back into the
wei value it denotes exactly. -/
def etherChars (cs : List Char) : Option Nat :=
  if cs = ['0'] then some 0
  else
    match takeDigits cs with
    | (ip, r) =>
      if ip = [] then none
      else
        match r with
        | [] => some (digitsVal ip * 10 ^ 18)
        | c :: r2 =>
          if c = '.' then
            match takeDigits r2 with
            | (fp, r3) =>
              match r3 with
              | [] =>
                if fp.length = 0 ∨ 18 < fp.length then none
                else some (digitsVal (ip ++ fp) * 10 ^ (18 - fp.length))
              | e :: r4 =>
                if e = 'E' then
                  match r4 with
                  | [] => none
                  | m :: r5 =>
                    if m = '-' then parseExp (digitsVal (ip ++ fp)) fp.length r5
                    else none
                else none
          else if c = 'E' then
            match r2 with
            | [] => none
            | m :: r4 =>
              if m = '-' then parseExp (digitsVal ip) 0 r4
              else none
          else none

/-- Parse an ether decimal string back into wei. -/
def etherStrToWei (s : String) : Option Nat :=
  etherChars s.data

/-! ## Endpoint URL validation

`is_valid_endpoint` tests `re.match` of the pattern at lines 85-91 against
the url.  The pattern is embedded through a small breadth-collecting regex
matcher (`RxM` maps an input to every possible remainder), which is the
standard existence-of-a-match semantics `re.match` decides. -/

/-- A matcher: every remainder some match of the construct leaves. -/
def RxM : Type :=
  List Char → List (List Char)

/-- Match one character satisfying `p`. -/
def rxChar (p : Char → Bool) : RxM :=
  fun s =>
    match s with
    | [] => []
    | c :: cs => if p c then [cs] else []

/-- Match nothing. -/
def rxEps : RxM :=
  fun s => [s]

/-- Sequencing. -/
def rxSeq (a b : RxM) : RxM :=
  fun s => (a s).flatMap b

/-- Alternation. -/
def rxAlt (a b : RxM) : RxM :=
  fun s => a s ++ b s

/-- Option (`?`). -/
def rxOpt (a : RxM) : RxM :=
  rxAlt a rxEps

/-- Exactly `n` repetitions. -/
def rxExact (a : RxM) : Nat → RxM
  | 0 => rxEps
  | n + 1 => rxSeq a (rxExact a n)

/-- At most `n` repetitions. -/
def rxUpTo (a : RxM) : Nat → RxM
  | 0 => rxEps
  | n + 1 => rxAlt (rxSeq a (rxUpTo a n)) rxEps

/-- Between `lo` and `lo + extra` repetitions. -/
def rxRange (a : RxM) (lo extra : Nat) : RxM :=
  rxSeq (rxExact a lo) (rxUpTo a extra)

/-- One or more repetitions, bounded by `fuel` (each atom used with `+` in the
pattern consumes at least one character, so fuel one past the input length is
exhaustive). -/
def rxPlusFuel (a : RxM) : Nat → RxM
  | 0 => fun _ => []
  | n + 1 => rxSeq a (rxAlt (rxPlusFuel a n) rxEps)

/-- One or more repetitions. -/
def rxPlus (a : RxM) : RxM :=
  fun s => rxPlusFuel a (s.length + 1) s

/-- A literal character sequence; `re.IGNORECASE` makes literal letters match
either case. -/
def rxStr : List Char → RxM
  | [] => rxEps
  | c :: cs => rxSeq (rxChar (fun x => x.toLower = c.toLower)) (rxStr cs)

/-- `[A-Z0-9]` under `re.IGNORECASE`: an ASCII letter or digit. -/
def rxAlnum : RxM :=
  rxChar (fun c => c.isAlphanum)

/-- `[A-Z0-9-]` under `re.IGNORECASE`. -/
def rxAlnumDash : RxM :=
  rxChar (fun c => c.isAlphanum || c = '-')

/-- `[A-Z]` under `re.IGNORECASE`. -/
def rxAlpha : RxM :=
  rxChar (fun c => c.isAlpha)

/-- `\d`. -/
def rxDigit : RxM :=
  rxChar (fun c => c.isDigit)

/-- `\S` (the complement of Python's `\s`). -/
def rxNonSpace : RxM :=
  rxChar (fun c => !pyWhite c)

/-- The protocol part `(?:http|wss|rpc)s?://`. -/
def rxProtocol : RxM :=
  rxSeq
    (rxAlt (rxStr ['h', 't', 't', 'p']) (rxAlt (rxStr ['w', 's', 's']) (rxStr ['r', 'p', 'c'])))
    (rxSeq (rxOpt (rxChar (fun c => c.toLower = 's'))) (rxStr [':', '/', '/']))

/-- One domain label with its dot:
`[A-Z0-9](?:[A-Z0-9-]{0,61}[A-Z0-9])?\.`. -/
def rxLabel : RxM :=
  rxSeq rxAlnum
    (rxSeq (rxOpt (rxSeq (rxUpTo rxAlnumDash 61) rxAlnum)) (rxChar (fun c => c = '.')))

/-- The domain alternative:
`(?:label)+(?:[A-Z]{2,6}\.?|[A-Z0-9-]{2,}\.?)`. -/
def rxDomain : RxM :=
  rxSeq (rxPlus rxLabel)
    (rxAlt (rxSeq (rxRange rxAlpha 2 4) (rxOpt (rxChar (fun c => c = '.'))))
      (rxSeq (rxSeq (rxExact rxAlnumDash 2) (fun s => rxUpTo rxAlnumDash s.length s))
        (rxOpt (rxChar (fun c => c = '.')))))

/-- The dotted-IPv4 alternative `\d{1,3}\.\d{1,3}\.\d{1,3}\.\d{1,3}`. -/
def rxIp : RxM :=
  rxSeq (rxRange rxDigit 1 2)
    (rxSeq (rxChar (fun c => c = '.'))
      (rxSeq (rxRange rxDigit 1 2)
        (rxSeq (rxChar (fun c => c = '.'))
          (rxSeq (rxRange rxDigit 1 2)
            (rxSeq (rxChar (fun c => c = '.')) (rxRange rxDigit 1 2))))))

/-- The host part: domain, `localhost` or IPv4. -/
def rxHost : RxM :=
  rxAlt rxDomain
    (rxAlt (rxStr ['l', 'o', 'c', 'a', 'l', 'h', 'o', 's', 't']) rxIp)

/-- The optional port `(?::\d+)?`. -/
def rxPort : RxM :=
  rxOpt (rxSeq (rxChar (fun c => c = ':')) (rxPlus rxDigit))

/-- The tail `(?:/?|[/?]\S+)`. -/
def rxTail : RxM :=
  rxAlt (rxOpt (rxChar (fun c => c = '/')))
    (rxSeq (rxChar (fun c => c = '/' || c = '?')) (rxPlus rxNonSpace))

/-- `$`: end of input, or just before one final newline. -/
def rxEnd : RxM :=
  fun s =>
    match s with
    | [] => [[]]
    | ['\n'] => [[]]
    | _ => []

/-- The whole pattern of lines 85-91, anchored by `re.match` at the start and
by `$` at the end. -/
def rxEndpoint : RxM :=
  rxSeq rxProtocol (rxSeq rxHost (rxSeq rxPort (rxSeq rxTail rxEnd)))

/-- The embedding of `is_valid_endpoint(url)`: whether `re.match` finds a
match of the endpoint pattern. -/
def is_valid_endpoint (url : String) : Bool :=
  !(rxEndpoint url.data).isEmpty

/-! ## Store-path validation and the `__main__` stage -/

/-- The pieces of the operating system the validation stage touches: which
paths exist as regular files, which are directories, and whether opening a
path in append mode succeeds (permissions). -/
structure World where
  files : List String
  dirs : List String
  appendable : String → Bool

/-- The embedding of `is_valid_db_path(db_path)`: reject a directory;
otherwise `open(db_path, 'a')` — which creates the file when it is absent —
and report whether it succeeded.  Returns the verdict and the world after the
attempt. -/
def is_valid_db_path (w : World) (p : String) : Bool × World :=
  if w.dirs.contains p then (false, w)
  else if w.appendable p then
    (true, { w with files := if w.files.contains p then w.files else w.files ++ [p] })
  else (false, w)

/-- Modelled from the spec: `initialize_db` executes the repository's
`schema.sql`, which is not under `src/`; per the spec's StoreInitializer
contract it creates the store file and the `Transactions` table if absent
("create if not exists" semantics), never touching existing rows, and
succeeds on the already-validated writable path. -/
def initialize_db_world (w : World) (p : String) : World :=
  { w with files := if w.files.contains p then w.files else w.files ++ [p] }

/-- What one invocation (past the argument-count loop) observably does:
its exit code, the world it leaves, the store rows it leaves, and whether it
performed any I/O against the chain endpoint. -/
structure MainResult where
  exitCode : Nat
  world : World
  db : List TransactionRecord
  chainContacted : Bool

/-- The embedding of the `__main__` stage once three arguments are read:
validate the endpoint url (pure), then the store path (opening it in append
mode), then the block range (pure); exit 1 on the first failure.  With all
three valid, run `initialize_db` and `fetch_transactions` — which swallows
every runtime fault — and fall off the end of the script (exit 0). -/
def mainAfterArgs (w : World) (connected : Bool) (fetch : Int → Option RawBlock)
    (wfail : Int → Option Nat) (endpoint dbp blocks : String)
    (db0 : List TransactionRecord) : MainResult :=
  if !(is_valid_endpoint endpoint) then ⟨1, w, db0, false⟩
  else
    match is_valid_db_path w dbp with
    | (false, w1) => ⟨1, w1, db0, false⟩
    | (true, w1) =>
      match is_valid_blocks_range blocks with
      | none => ⟨1, w1, db0, false⟩
      | some (s, e) =>
        let w2 := initialize_db_world w1 dbp
        let out := fetch_transactions connected fetch wfail s e db0
        ⟨0, w2, out.durable, true⟩

/-! ## C1: idempotent insertion -/

/-- C1: inserting a `TransactionRecord` whose hash already exists is a
successful no-op.  Inserting the same record twice gives the same store as
inserting it once; an insert only ever appends (it never rewrites an existing
row, so the first-written row survives every later insert of its hash); and
when the store held at most one row of that hash — the schema's uniqueness
invariant — it holds exactly one afterwards. -/
theorem insert_same_hash_idempotent (rows : List TransactionRecord)
    (r : TransactionRecord) :
    insertOrIgnore (insertOrIgnore rows r) r = insertOrIgnore rows r
    ∧ (insertOrIgnore rows r = rows ∨ insertOrIgnore rows r = rows ++ [r])
    ∧ (∀ q ∈ rows, q ∈ insertOrIgnore rows r)
    ∧ (rows.countP (fun q => q.hash == r.hash) ≤ 1 →
        (insertOrIgnore rows r).countP (fun q => q.hash == r.hash) = 1) := by
  by_cases h : rows.any (fun q => q.hash == r.hash)
  · refine ⟨by simp [insertOrIgnore, h], Or.inl (by simp [insertOrIgnore, h]),
      fun q hq => by simp [insertOrIgnore, h, hq], fun hc => ?_⟩
    have hpos : 0 < rows.countP (fun q => q.hash == r.hash) := by
      rw [List.countP_pos_iff]
      simpa using List.any_eq_true.mp h
    simp only [insertOrIgnore, h, if_true]
    omega
  · have h0 : rows.countP (fun q => q.hash == r.hash) = 0 := by
      rw [List.countP_eq_zero]
      intro q hq
      exact fun hcontra => h (List.any_eq_true.mpr ⟨q, hq, hcontra⟩)
    have happ : insertOrIgnore rows r = rows ++ [r] := by
      simp [insertOrIgnore, h]
    have hany2 : (rows ++ [r]).any (fun q => q.hash == r.hash) = true := by
      simp [List.any_append]
    refine ⟨?_, Or.inr happ, fun q hq => by simp [happ, hq], fun _ => ?_⟩
    · rw [happ]
      simp [insertOrIgnore, hany2]
    · rw [happ, List.countP_append, h0]
      simp [List.countP_cons]

/-! ## C5: range validation -/

/-- C5: `is_valid_blocks_range` returns `(a, b)` exactly when the input splits
on `'-'` into exactly two `int`-parsable tokens with `a ≤ b`; every other
input yields `None`. -/
theorem is_valid_blocks_range_spec (s : String) (a b : Int) :
    is_valid_blocks_range s = some (a, b) ↔
      ∃ t1 t2, pySplitDash s.data = [t1, t2] ∧ pyIntChars t1 = some a
        ∧ pyIntChars t2 = some b ∧ a ≤ b := by
  unfold is_valid_blocks_range
  rcases hs : pySplitDash s.data with _ | ⟨t1, _ | ⟨t2, _ | ⟨t3, rest⟩⟩⟩
  · simp [hs]
  · simp [hs]
  · rcases h1 : pyIntChars t1 with _ | x
    · simp [hs, h1]
    · rcases h2 : pyIntChars t2 with _ | y
      · simp [hs, h1, h2]
      · by_cases hxy : x ≤ y
        · simp only [hs, h1, h2, if_pos hxy, Option.some.injEq, Prod.mk.injEq]
          constructor
          · rintro ⟨rfl, rfl⟩
            exact ⟨t1, t2, rfl, h1, h2, hxy⟩
          · rintro ⟨u1, u2, huv, hu1, hu2, hab⟩
            obtain ⟨rfl, rfl⟩ : t1 = u1 ∧ t2 = u2 := by
              simpa using huv
            rw [h1] at hu1
            rw [h2] at hu2
            cases hu1
            cases hu2
            exact ⟨rfl, rfl⟩
        · simp only [hs, h1, h2, if_neg hxy]
          constructor
          · rintro ⟨⟩
          · rintro ⟨u1, u2, huv, hu1, hu2, hab⟩
            obtain ⟨rfl, rfl⟩ : t1 = u1 ∧ t2 = u2 := by
              simpa using huv
            rw [h1] at hu1
            rw [h2] at hu2
            cases hu1
            cases hu2
            exact absurd hab hxy
  · simp [hs]

/-- Witness for C5 at a concrete input: `"100-200"` parses to `(100, 200)`. -/
theorem is_valid_blocks_range_spec_witness :
    is_valid_blocks_range "100-200" = some (100, 200) := by
  exact (is_valid_blocks_range_spec "100-200" 100 200).mpr
    ⟨['1', '0', '0'], ['2', '0', '0'], by decide, by decide, by decide, by decide⟩

/-! ## C7: unreachable endpoint -/

/-- C7: when `w3.is_connected()` reports false, `fetch_transactions` returns
before opening the store: no block is fetched, no commit happens and the store
keeps exactly its prior rows. -/
theorem fetch_transactions_unreachable (fetch : Int → Option RawBlock)
    (wfail : Int → Option Nat) (start endB : Int)
    (db0 : List TransactionRecord) :
    fetch_transactions false fetch wfail start endB db0
      = ⟨db0, 0, [], RunOutcome.unreachable⟩ :=
  rfl

/-! ## C9: the argument-count loop never terminates -/

/-- C9: with `len(sys.argv) != 4` the `while True` loop never breaks out: after
any number of iterations it is still looping, having printed the usage message
once per iteration, so validation (and any exit) is never reached. -/
theorem argLoop_never_breaks (argc : Nat) (h : argc ≠ 4) (n : Nat) :
    argLoopRun argc n = ArgLoopSt.looping n := by
  induction n with
  | zero => rfl
  | succ n ih =>
    rw [argLoopRun, ih]
    simp [argLoopStep, h]

/-- Witness for C9: with two arguments (`len(sys.argv) = 3`) the loop is still
printing after 100 iterations. -/
theorem argLoop_never_breaks_witness :
    (3 : Nat) ≠ 4 ∧ argLoopRun 3 100 = ArgLoopSt.looping 100 :=
  ⟨by decide, argLoop_never_breaks 3 (by decide) 100⟩

/-! ## Pipeline lemmas -/

/-- `pyRange` splits as an append. -/
theorem pyRange_append (m : Nat) : ∀ (s : Int) (n : Nat),
    pyRange s (m + n) = pyRange s m ++ pyRange (s + m) n := by
  induction m with
  | zero =>
    intro s n
    simp [pyRange]
  | succ m ih =>
    intro s n
    have hmn : m + 1 + n = (m + n) + 1 := by omega
    rw [hmn]
    show s :: pyRange (s + 1) (m + n) = pyRange s (m + 1) ++ pyRange (s + (m + 1)) n
    rw [ih (s + 1) n]
    show s :: (pyRange (s + 1) m ++ pyRange (s + 1 + m) n)
      = (s :: pyRange (s + 1) m) ++ pyRange (s + (m + 1)) n
    have : s + 1 + (m : Int) = s + ((m : Nat) + 1 : Nat) := by push_cast; ring
    rw [this]
    simp

/-- Membership in `pyRange`. -/
theorem mem_pyRange : ∀ (n : Nat) (s k : Int), k ∈ pyRange s n ↔ s ≤ k ∧ k < s + n := by
  intro n
  induction n with
  | zero =>
    intro s k
    simp [pyRange]
  | succ n ih =>
    intro s k
    show k ∈ s :: pyRange (s + 1) n ↔ _
    simp [ih (s + 1) k]
    omega

/-- The length of `pyRange`. -/
theorem pyRange_length : ∀ (n : Nat) (s : Int), (pyRange s n).length = n := by
  intro n
  induction n with
  | zero => intro s; rfl
  | succ n ih =>
    intro s
    show (s :: pyRange (s + 1) n).length = n + 1
    simp [ih]

/-- Decomposing `pyRange` around a distinguished element. -/
theorem pyRange_eq_append_cons (ns1 : List Int) :
    ∀ (s : Int) (n : Nat) (m : Int) (ns2 : List Int),
      pyRange s n = ns1 ++ m :: ns2 →
        m = s + ns1.length ∧ ns1 = pyRange s ns1.length ∧ ns1.length < n := by
  induction ns1 with
  | nil =>
    intro s n m ns2 h
    cases n with
    | zero => simp [pyRange] at h
    | succ n =>
      have h' : s :: pyRange (s + 1) n = m :: ns2 := h
      injection h' with hm htail
      subst hm
      refine ⟨by simp, rfl, by simp⟩
  | cons a tl ih =>
    intro s n m ns2 h
    cases n with
    | zero => simp [pyRange] at h
    | succ n =>
      have h' : s :: pyRange (s + 1) n = a :: (tl ++ m :: ns2) := h
      injection h' with ha htail
      subst ha
      obtain ⟨hm, htl, hlt⟩ := ih (s + 1) n m ns2 htail
      refine ⟨?_, ?_, by simp; omega⟩
      · rw [hm]
        simp only [List.length_cons]
        push_cast
        ring
      · show s :: tl = pyRange s (tl.length + 1)
        rw [show pyRange s (tl.length + 1) = s :: pyRange (s + 1) tl.length from rfl, ← htl]

/-- Splitting the visited block numbers at one block `m` of the range. -/
theorem blockNos_split (start endB m : Int) (h1 : start ≤ m) (h2 : m ≤ endB) :
    blockNos start endB = blockNos start (m - 1) ++ m :: blockNos (m + 1) endB := by
  unfold blockNos
  have ha : (endB + 1 - start).toNat
      = (m - start).toNat + ((endB - m).toNat + 1) := by omega
  rw [ha, pyRange_append, Nat.add_comm ((endB - m).toNat) 1, pyRange_append]
  have hsa : start + ((m - start).toNat : Int) = m := by omega
  have h3 : (m - 1 + 1 - start).toNat = (m - start).toNat := by omega
  have h4 : (endB + 1 - (m + 1)).toNat = (endB - m).toNat := by omega
  rw [hsa, h3, h4]
  show _ = pyRange start (m - start).toNat ++ m :: pyRange (m + 1) (endB - m).toNat
  have : pyRange m 1 = [m] := rfl
  rw [this]
  have : m + (1 : Nat) = m + 1 := by push_cast; ring
  rw [this]
  simp

/-- A run of successful inserts is the fold of `insertOrIgnore` over the
block's extracted records. -/
theorem insertTxs_none (ts : Nat) : ∀ (txs : List RawTransaction) (i : Nat)
    (view : List TransactionRecord),
    insertTxs none ts txs i view
      = ((txs.map (recordOfTx ts)).foldl insertOrIgnore view, true) := by
  intro txs
  induction txs with
  | nil => intro i view; rfl
  | cons tx rest ih =>
    intro i view
    show insertTxs none ts (tx :: rest) i view = _
    rw [insertTxs]
    simp only [reduceCtorEq, if_false]
    rw [ih (i + 1) (insertOrIgnore view (recordOfTx ts tx))]
    simp

/-- A write failure aimed inside the block makes the insert run fail. -/
theorem insertTxs_fail (ts : Nat) (j : Nat) : ∀ (txs : List RawTransaction) (i : Nat)
    (view : List TransactionRecord), i ≤ j → j < i + txs.length →
    (insertTxs (some j) ts txs i view).2 = false := by
  intro txs
  induction txs with
  | nil =>
    intro i view hle hlt
    simp at hlt
    omega
  | cons tx rest ih =>
    intro i view hle hlt
    rw [insertTxs]
    by_cases hij : j = i
    · subst hij
      simp
    · have : ¬ (some j = some i) := by simp [hij]
      rw [if_neg this]
      exact ih (i + 1) _ (by omega) (by simp at hlt ⊢; omega)

/-- Ingest one block into the store: fold its extracted records through
`INSERT OR IGNORE`. -/
def ingestBlock (db : List TransactionRecord) (b : RawBlock) : List TransactionRecord :=
  (extract b).foldl insertOrIgnore db

/-- Running the loop over an all-successful prefix commits each block in turn
and proceeds to the rest from the committed state. -/
theorem runBlocks_success_prefix (fetch : Int → Option RawBlock)
    (wfail : Int → Option Nat) (B : Int → RawBlock) :
    ∀ (ns1 rest : List Int) (st : LoopSt),
      (∀ n ∈ ns1, fetch n = some (B n) ∧ wfail n = none) →
      st.view = st.durable →
      runBlocks fetch wfail (ns1 ++ rest) st =
        runBlocks fetch wfail rest
          { durable := ns1.foldl (fun db n => ingestBlock db (B n)) st.durable,
            view := ns1.foldl (fun db n => ingestBlock db (B n)) st.durable,
            commits := st.commits + ns1.length,
            fetched := st.fetched ++ ns1 } := by
  intro ns1
  induction ns1 with
  | nil =>
    intro rest st _ hvd
    simp only [List.nil_append, List.foldl_nil, List.length_nil, Nat.add_zero,
      List.append_nil]
    congr 1
    cases st with
    | mk d v c f => simp at hvd; simp [hvd]
  | cons n ns1 ih =>
    intro rest st hok hvd
    obtain ⟨hf, hw⟩ := hok n (by simp)
    have hrec : ∀ m ∈ ns1, fetch m = some (B m) ∧ wfail m = none :=
      fun m hm => hok m (by simp [hm])
    show runBlocks fetch wfail (n :: (ns1 ++ rest)) st = _
    rw [runBlocks, hf]
    dsimp only
    rw [hvd, hw, insertTxs_none]
    dsimp only
    have heq : ((B n).transactions.map (recordOfTx (B n).timestamp)).foldl insertOrIgnore
        st.durable = ingestBlock st.durable (B n) := rfl
    have hrw := ih rest
      { durable := ingestBlock st.durable (B n), view := ingestBlock st.durable (B n),
        commits := st.commits + 1, fetched := st.fetched ++ [n] } hrec rfl
    dsimp only at hrw
    rw [heq, hrw]
    congr 1
    simp only [List.foldl_cons, List.length_cons, List.append_assoc,
      List.singleton_append, LoopSt.mk.injEq]
    refine ⟨trivial, trivial, by omega, trivial⟩

/-! ## C2: partial durability on abort -/

/-- C2: if blocks `start..k` each fetch and commit successfully and block
`k+1` fails — the fetch raises, or a `cursor.execute` raises partway through
the block's inserts — the loop aborts at `k+1`: no block past `k+1` is ever
fetched, and after the `finally` close the store holds exactly the result of
ingesting blocks `start..k` into its prior rows (committed blocks survive,
nothing of block `k+1` or later is present). -/
theorem fetch_transactions_partial_durability (fetch : Int → Option RawBlock)
    (wfail : Int → Option Nat) (B : Int → RawBlock) (start endB k : Int)
    (db0 : List TransactionRecord)
    (h1 : start ≤ k + 1) (h2 : k + 1 ≤ endB)
    (hpre : ∀ n, start ≤ n → n ≤ k → fetch n = some (B n) ∧ wfail n = none)
    (hfail : fetch (k + 1) = none ∨
      ∃ b j, fetch (k + 1) = some b ∧ wfail (k + 1) = some j
        ∧ j < b.transactions.length) :
    fetch_transactions true fetch wfail start endB db0 =
      ⟨(blockNos start k).foldl (fun db n => ingestBlock db (B n)) db0,
        (k + 1 - start).toNat, blockNos start (k + 1),
        RunOutcome.aborted (k + 1)⟩ := by
  have hsplit := blockNos_split start endB (k + 1) h1 h2
  have hk : k + 1 - 1 = k := by ring
  rw [hk] at hsplit
  have hmem : ∀ n ∈ blockNos start k, fetch n = some (B n) ∧ wfail n = none := by
    intro n hn
    have := (mem_pyRange _ start n).mp hn
    exact hpre n this.1 (by omega)
  have hpref := runBlocks_success_prefix fetch wfail B (blockNos start k)
    ((k + 1) :: blockNos (k + 1 + 1) endB) ⟨db0, db0, 0, []⟩ hmem rfl
  dsimp only at hpref
  have hfetched : blockNos start (k + 1) = blockNos start k ++ [k + 1] := by
    have hs := blockNos_split start (k + 1) (k + 1) h1 (le_refl _)
    rw [hk] at hs
    rw [hs]
    have hempty : blockNos (k + 1 + 1) (k + 1) = [] := by
      unfold blockNos
      have h0 : (k + 1 + 1 - (k + 1 + 1)).toNat = 0 := by omega
      rw [h0]
      rfl
    rw [hempty]
  have hlen : (blockNos start k).length = (k + 1 - start).toNat := by
    unfold blockNos
    rw [pyRange_length]
  unfold fetch_transactions
  rw [if_pos rfl, hsplit, hpref]
  rcases hfail with hnone | ⟨b, j, hsome, hwf, hj⟩
  · rw [runBlocks, hnone]
    dsimp only
    rw [hfetched, hlen]
    simp
  · rw [runBlocks, hsome]
    dsimp only
    have hsnd := insertTxs_fail b.timestamp j b.transactions 0
      ((blockNos start k).foldl (fun db n => ingestBlock db (B n)) db0)
      (Nat.zero_le j) (by simpa using hj)
    rw [hwf]
    rcases hit : insertTxs (some j) b.timestamp b.transactions 0
      ((blockNos start k).foldl (fun db n => ingestBlock db (B n)) db0) with ⟨v1, ok⟩
    rw [hit] at hsnd
    simp only at hsnd
    subst hsnd
    dsimp only
    rw [hfetched, hlen]
    simp

/-- Witness for C2 at a concrete input: blocks 100 and 101 (empty) commit,
block 102's fetch raises; the run aborts at 102 having fetched exactly
100, 101, 102 and committed twice. -/
theorem fetch_transactions_partial_durability_witness :
    fetch_transactions true
      (fun n => if n = 102 then none else some ⟨n, 0, []⟩) (fun _ => none)
      100 102 []
      = ⟨[], 2, [100, 101, 102], RunOutcome.aborted 102⟩ := by
  have h := fetch_transactions_partial_durability
    (fun n => if n = 102 then none else some ⟨n, 0, []⟩) (fun _ => none)
    (fun n => ⟨n, 0, []⟩) 100 102 101 []
    (by omega) (by omega)
    (fun n hn1 hn2 => ⟨by
      have hne : ¬ (n = 102) := by omega
      simp [hne], rfl⟩)
    (Or.inl (by simp))
  rw [h]
  decide

/-! ## C3: one commit per successfully processed block -/

/-- Every run of the block loop either completes, having committed once per
visited block, or aborts at some block `m`, having committed once per block
before `m` and keeping exactly the rows durable at the last commit. -/
theorem runBlocks_cases (fetch : Int → Option RawBlock) (wfail : Int → Option Nat) :
    ∀ (ns : List Int) (st : LoopSt),
      ((runBlocks fetch wfail ns st).2 = RunOutcome.completed
        ∧ (runBlocks fetch wfail ns st).1.commits = st.commits + ns.length)
      ∨ ∃ ns1 m ns2,
          ns = ns1 ++ m :: ns2
          ∧ (runBlocks fetch wfail ns st).2 = RunOutcome.aborted m
          ∧ (runBlocks fetch wfail ns st).1.durable
              = (runBlocks fetch wfail ns1 st).1.durable
          ∧ (runBlocks fetch wfail ns1 st).2 = RunOutcome.completed
          ∧ (runBlocks fetch wfail ns st).1.commits = st.commits + ns1.length := by
  intro ns
  induction ns with
  | nil =>
    intro st
    left
    exact ⟨rfl, by simp [runBlocks]⟩
  | cons n ns ih =>
    intro st
    rcases hf : fetch n with _ | b
    · right
      have hstep : runBlocks fetch wfail (n :: ns) st
          = ({ st with fetched := st.fetched ++ [n] }, RunOutcome.aborted n) := by
        rw [runBlocks, hf]
      refine ⟨[], n, ns, rfl, by rw [hstep], by rw [hstep]; rfl, rfl,
        by rw [hstep]; simp⟩
    · rcases hit : insertTxs (wfail n) b.timestamp b.transactions 0 st.view
        with ⟨view1, ok⟩
      cases ok with
      | false =>
        right
        have hstep : runBlocks fetch wfail (n :: ns) st
            = ({ durable := st.durable, view := view1, commits := st.commits,
                  fetched := st.fetched ++ [n] }, RunOutcome.aborted n) := by
          rw [runBlocks, hf]
          dsimp only
          rw [hit]
        refine ⟨[], n, ns, rfl, by rw [hstep], by rw [hstep]; rfl, rfl,
          by rw [hstep]; simp⟩
      | true =>
        have hstep : runBlocks fetch wfail (n :: ns) st
            = runBlocks fetch wfail ns
              ⟨view1, view1, st.commits + 1, st.fetched ++ [n]⟩ := by
          rw [runBlocks, hf]
          dsimp only
          rw [hit]
        rcases ih ⟨view1, view1, st.commits + 1, st.fetched ++ [n]⟩ with
          ⟨hc, hcm⟩ | ⟨ns1, m, ns2, hsp, hab, hdu, hpc, hcm⟩
        · left
          rw [hstep]
          exact ⟨hc, by rw [hcm]; simp; omega⟩
        · right
          have hstep1 : runBlocks fetch wfail (n :: ns1) st
              = runBlocks fetch wfail ns1
                ⟨view1, view1, st.commits + 1, st.fetched ++ [n]⟩ := by
            rw [runBlocks, hf]
            dsimp only
            rw [hit]
          refine ⟨n :: ns1, m, ns2, by rw [hsp]; rfl, ?_, ?_, ?_, ?_⟩
          · rw [hstep]
            exact hab
          · rw [hstep, hstep1]
            exact hdu
          · rw [hstep1]
            exact hpc
          · rw [hstep, hcm]
            simp
            omega

/-- C3: during a run over any range, one commit is performed per successfully
processed block — `range.length` commits on completion, `m - start` commits
when the run aborts at block `m` — and on abort the store's durable rows are
exactly those of the truncated run over `start..m-1`, which completes: the
in-flight block's inserts are lost at the close, everything committed
survives.  Records thus become durable only at the per-block commit: a crash
on block `m` loses at most block `m`'s transactions. -/
theorem fetch_transactions_commit_granularity (fetch : Int → Option RawBlock)
    (wfail : Int → Option Nat) (start endB : Int) (db0 : List TransactionRecord) :
    ((fetch_transactions true fetch wfail start endB db0).outcome
        = RunOutcome.completed
      ∧ (fetch_transactions true fetch wfail start endB db0).commits
        = (endB + 1 - start).toNat)
    ∨ ∃ m, start ≤ m ∧ m ≤ endB
        ∧ (fetch_transactions true fetch wfail start endB db0).outcome
            = RunOutcome.aborted m
        ∧ (fetch_transactions true fetch wfail start endB db0).commits
            = (m - start).toNat
        ∧ (fetch_transactions true fetch wfail start endB db0).durable
            = (fetch_transactions true fetch wfail start (m - 1) db0).durable
        ∧ (fetch_transactions true fetch wfail start (m - 1) db0).outcome
            = RunOutcome.completed := by
  rcases runBlocks_cases fetch wfail (blockNos start endB) ⟨db0, db0, 0, []⟩ with
    ⟨hc, hcm⟩ | ⟨ns1, m, ns2, hsp, hab, hdu, hpc, hcm⟩
  · left
    constructor
    · show (runBlocks fetch wfail (blockNos start endB) ⟨db0, db0, 0, []⟩).2
        = RunOutcome.completed
      exact hc
    · show (runBlocks fetch wfail (blockNos start endB) ⟨db0, db0, 0, []⟩).1.commits
        = (endB + 1 - start).toNat
      rw [hcm]
      dsimp only
      unfold blockNos
      rw [pyRange_length]
      omega
  · right
    obtain ⟨hm, hns1, hlt⟩ := pyRange_eq_append_cons ns1 start _ m ns2 hsp
    have hlen2 : (m - 1 + 1 - start).toNat = ns1.length := by omega
    have htrunc : blockNos start (m - 1) = ns1 := by
      unfold blockNos
      rw [hlen2, ← hns1]
    refine ⟨m, by omega, by omega, ?_, ?_, ?_, ?_⟩
    · exact hab
    · show (runBlocks fetch wfail (blockNos start endB) ⟨db0, db0, 0, []⟩).1.commits
        = (m - start).toNat
      rw [hcm]
      dsimp only
      omega
    · show (runBlocks fetch wfail (blockNos start endB) ⟨db0, db0, 0, []⟩).1.durable
        = (runBlocks fetch wfail (blockNos start (m - 1)) ⟨db0, db0, 0, []⟩).1.durable
      rw [htrunc]
      exact hdu
    · show (runBlocks fetch wfail (blockNos start (m - 1)) ⟨db0, db0, 0, []⟩).2
        = RunOutcome.completed
      rw [htrunc]
      exact hpc

/-! ## C6: the block-number mismatch is not checked -/

/-- Counterexample to C6 at a concrete input: block 5 carries one transaction
whose own `blockNumber` field says 6.  The run completes with no fault
surfaced and persists the record with the transaction's number 6 — the
mismatch is silently trusted, not reported, and the record is not rejected. -/
theorem mismatched_blockNumber_persisted :
    fetch_transactions true
        (fun n => if n = 5 then some ⟨5, 1000, [⟨"0xabc", 6, 0⟩]⟩ else none)
        (fun _ => none) 5 5 []
      = ⟨[⟨"0xabc", 6, "0", 1000⟩], 1, [5], RunOutcome.completed⟩
    ∧ (6 : Int) ≠ 5 := by
  constructor
  · decide
  · decide

/-- C6 as amended: extraction copies the transaction's own `blockNumber` field
into the persisted record without comparing it against the containing block's
number; one record per transaction is produced and a mismatching record is
kept as-is (no fault is raised anywhere in extraction). -/
theorem extract_blockNumber_unchecked (b : RawBlock) :
    (extract b).map TransactionRecord.blockNumber
      = b.transactions.map RawTransaction.blockNumber
    ∧ (extract b).length = b.transactions.length := by
  constructor
  · simp [extract, recordOfTx, Function.comp]
  · simp [extract]

/-! ## C8: input-error handling -/

/-- A world with no files, no directories, and every path writable. -/
def w0 : World :=
  ⟨[], [], fun _ => true⟩

/-- Counterexample to C8 at a concrete input: endpoint `http://localhost` is
valid, store path `crawler.db` is valid (absent but creatable), and the range
`5-3` is invalid.  The process exits 1 and the chain is never contacted, but
it is not true that no file was created: validating the store path opened
`crawler.db` in append mode and created it before the range error was
detected. -/
theorem input_error_creates_store_file :
    (mainAfterArgs w0 true (fun _ => none) (fun _ => none)
        "http://localhost" "crawler.db" "5-3" []).exitCode = 1
    ∧ (mainAfterArgs w0 true (fun _ => none) (fun _ => none)
        "http://localhost" "crawler.db" "5-3" []).chainContacted = false
    ∧ (mainAfterArgs w0 true (fun _ => none) (fun _ => none)
        "http://localhost" "crawler.db" "5-3" []).world.files = ["crawler.db"]
    ∧ w0.files = [] := by
  refine ⟨?_, ?_, ?_, rfl⟩ <;> decide

/-- C8 as amended: each of the three input errors is detected before any I/O
against the chain (the process exits with code 1, no connection attempted, the
store rows untouched), and an invalid endpoint is rejected before any store
I/O as well; however, store-path validation itself opens the path in append
mode, so when the block-range expression is the invalid input the store file
has already been created/opened by the preceding path check — the world is
left either untouched or exactly as the path check left it. -/
theorem input_errors_exit1_before_chain (w : World) (connected : Bool)
    (fetch : Int → Option RawBlock) (wfail : Int → Option Nat)
    (ep dbp blocks : String) (db0 : List TransactionRecord)
    (hbad : is_valid_endpoint ep = false ∨ (is_valid_db_path w dbp).1 = false
      ∨ is_valid_blocks_range blocks = none) :
    (mainAfterArgs w connected fetch wfail ep dbp blocks db0).exitCode = 1
    ∧ (mainAfterArgs w connected fetch wfail ep dbp blocks db0).chainContacted = false
    ∧ (mainAfterArgs w connected fetch wfail ep dbp blocks db0).db = db0
    ∧ ((mainAfterArgs w connected fetch wfail ep dbp blocks db0).world = w
        ∨ (mainAfterArgs w connected fetch wfail ep dbp blocks db0).world
            = (is_valid_db_path w dbp).2) := by
  by_cases he : is_valid_endpoint ep = true
  · rcases hdb : is_valid_db_path w dbp with ⟨ok, w1⟩
    cases ok with
    | false =>
      simp [mainAfterArgs, he, hdb]
    | true =>
      rcases hbad with h | h | h
      · rw [he] at h
        cases h
      · rw [hdb] at h
        cases h
      · simp [mainAfterArgs, he, hdb, h]
  · have he' : is_valid_endpoint ep = false := by simpa using he
    simp [mainAfterArgs, he']

/-- Witness for the amended C8 at a concrete input: unreachable endpoint url
`ftp://example.com` is rejected with exit 1, no chain contact, store rows and
world untouched. -/
theorem input_errors_exit1_before_chain_witness :
    (mainAfterArgs w0 true (fun _ => none) (fun _ => none)
        "ftp://example.com" "crawler.db" "100-200" []).exitCode = 1
    ∧ (mainAfterArgs w0 true (fun _ => none) (fun _ => none)
        "ftp://example.com" "crawler.db" "100-200" []).chainContacted = false
    ∧ (mainAfterArgs w0 true (fun _ => none) (fun _ => none)
        "ftp://example.com" "crawler.db" "100-200" []).db = []
    ∧ ((mainAfterArgs w0 true (fun _ => none) (fun _ => none)
        "ftp://example.com" "crawler.db" "100-200" []).world = w0
        ∨ (mainAfterArgs w0 true (fun _ => none) (fun _ => none)
        "ftp://example.com" "crawler.db" "100-200" []).world
            = (is_valid_db_path w0 "crawler.db").2) :=
  input_errors_exit1_before_chain w0 true (fun _ => none) (fun _ => none)
    "ftp://example.com" "crawler.db" "100-200" [] (Or.inl (by decide))

/-! ## C10: runtime aborts still exit 0 -/

/-- C10: the process exit code is decided entirely by the three input
validations: code 1 exactly when one of them fails, code 0 otherwise — in
particular exit 0 whatever the connectivity (`connected`) and whatever
per-block faults (`fetch`, `wfail`) occur, since `fetch_transactions` prints
and returns normally in every such case. -/
theorem exit_code_zero_unless_input_invalid (w : World) (connected : Bool)
    (fetch : Int → Option RawBlock) (wfail : Int → Option Nat)
    (ep dbp blocks : String) (db0 : List TransactionRecord) :
    (mainAfterArgs w connected fetch wfail ep dbp blocks db0).exitCode
      = if is_valid_endpoint ep && (is_valid_db_path w dbp).1
          && (is_valid_blocks_range blocks).isSome then 0 else 1 := by
  by_cases he : is_valid_endpoint ep = true
  · rcases hdb : is_valid_db_path w dbp with ⟨ok, w1⟩
    cases ok with
    | false => simp [mainAfterArgs, he, hdb]
    | true =>
      rcases hr : is_valid_blocks_range blocks with _ | ⟨s, e⟩
      · simp [mainAfterArgs, he, hdb, hr]
      · simp [mainAfterArgs, he, hdb, hr]
  · have he' : is_valid_endpoint ep = false := by simpa using he
    simp [mainAfterArgs, he']

/-! ## C4: exact extraction lemmas -/

/-- Folding digits from an arbitrary accumulator. -/
theorem digitsVal_go (ds : List Nat) : ∀ a : Nat,
    List.foldl (fun a d => 10 * a + d) a ds = a * 10 ^ ds.length + digitsVal ds := by
  induction ds with
  | nil =>
    intro a
    simp [digitsVal]
  | cons d ds ih =>
    intro a
    show List.foldl _ (10 * a + d) ds = _
    rw [ih (10 * a + d)]
    have h2 : digitsVal (d :: ds) = d * 10 ^ ds.length + digitsVal ds := by
      show List.foldl _ (10 * 0 + d) ds = _
      rw [ih (10 * 0 + d)]
      ring
    rw [h2, List.length_cons]
    ring

/-- The value of appended digit lists. -/
theorem digitsVal_append (xs ys : List Nat) :
    digitsVal (xs ++ ys) = digitsVal xs * 10 ^ ys.length + digitsVal ys := by
  unfold digitsVal
  rw [List.foldl_append]
  exact digitsVal_go ys _

/-- Leading zeros do not change a digit list's value. -/
theorem digitsVal_replicate_zero (k : Nat) (ds : List Nat) :
    digitsVal (List.replicate k 0 ++ ds) = digitsVal ds := by
  rw [digitsVal_append]
  have h0 : digitsVal (List.replicate k 0) = 0 := by
    induction k with
    | zero => rfl
    | succ k ih =>
      rw [List.replicate_succ]
      show List.foldl (fun a d => 10 * a + d) (10 * 0 + 0) (List.replicate k 0) = 0
      simpa [digitsVal] using ih
  rw [h0]
  ring

/-- Every digit `natDigitsF` produces is below 10. -/
theorem natDigitsF_lt10 : ∀ (f n : Nat), ∀ d ∈ natDigitsF f n, d < 10 := by
  intro f
  induction f with
  | zero =>
    intro n d hd
    simp [natDigitsF] at hd
    subst hd
    exact Nat.mod_lt _ (by omega)
  | succ f ih =>
    intro n d hd
    rw [natDigitsF] at hd
    split at hd
    · next h =>
      simp at hd
      omega
    · next h =>
      rw [List.mem_append] at hd
      rcases hd with hd | hd
      · exact ih (n / 10) d hd
      · simp at hd
        subst hd
        exact Nat.mod_lt _ (by omega)

/-- Every digit `natDigits` produces is below 10. -/
theorem natDigits_lt10 (n : Nat) : ∀ d ∈ natDigits n, d < 10 :=
  natDigitsF_lt10 n n

/-- `natDigitsF` is never empty. -/
theorem natDigitsF_ne_nil (f n : Nat) : natDigitsF f n ≠ [] := by
  cases f with
  | zero => simp [natDigitsF]
  | succ f =>
    rw [natDigitsF]
    split
    · simp
    · simp

/-- `natDigits` is never empty. -/
theorem natDigits_ne_nil (n : Nat) : natDigits n ≠ [] :=
  natDigitsF_ne_nil n n

/-- With adequate fuel, `natDigitsF` denotes its input. -/
theorem digitsVal_natDigitsF : ∀ f n : Nat, n ≤ f + 1 →
    digitsVal (natDigitsF f n) = n := by
  intro f
  induction f with
  | zero =>
    intro n hn
    show digitsVal [n % 10] = n
    simp [digitsVal]
    omega
  | succ f ih =>
    intro n hn
    rw [natDigitsF]
    split
    · next h =>
      simp [digitsVal]
    · next h =>
      rw [digitsVal_append, ih (n / 10) (by omega)]
      simp [digitsVal]
      omega

/-- `natDigits` denotes its input. -/
theorem digitsVal_natDigits (n : Nat) : digitsVal (natDigits n) = n :=
  digitsVal_natDigitsF n n (by omega)

/-- The reduced coefficient and removed zero count reconstruct the value
exactly: the decimal division by `10^18` loses nothing. -/
theorem stripTrail_exact : ∀ f v : Nat,
    (stripTrail f v).1 * 10 ^ (stripTrail f v).2 = v := by
  intro f
  induction f with
  | zero =>
    intro v
    simp [stripTrail]
  | succ f ih =>
    intro v
    rw [stripTrail]
    split
    · next h =>
      dsimp only
      have hv := ih (v / 10)
      have h3 : (stripTrail f (v / 10)).1 * 10 ^ ((stripTrail f (v / 10)).2 + 1)
          = ((stripTrail f (v / 10)).1 * 10 ^ (stripTrail f (v / 10)).2) * 10 := by
        ring
      rw [h3, hv]
      omega
    · next h =>
      dsimp only
      simp

/-- At most `f` zeros are removed. -/
theorem stripTrail_le : ∀ f v : Nat, (stripTrail f v).2 ≤ f := by
  intro f
  induction f with
  | zero =>
    intro v
    simp [stripTrail]
  | succ f ih =>
    intro v
    rw [stripTrail]
    split
    · dsimp only
      exact Nat.succ_le_succ (ih (v / 10))
    · dsimp only
      exact Nat.zero_le _

/-- A digit character is an ASCII digit. -/
theorem digitChar_isDigit (d : Nat) (h : d < 10) : (digitChar d).isDigit = true := by
  interval_cases d <;> decide

/-- Reading a digit character back. -/
theorem digitChar_toNat (d : Nat) (h : d < 10) : (digitChar d).toNat = 48 + d := by
  interval_cases d <;> decide

/-- `takeDigits` consumes exactly a rendered digit run. -/
theorem takeDigits_dChars_append (ds : List Nat) (rest : List Char)
    (hds : ∀ d ∈ ds, d < 10)
    (hrest : ∀ c, rest.head? = some c → c.isDigit = false) :
    takeDigits (dChars ds ++ rest) = (ds, rest) := by
  induction ds with
  | nil =>
    simp only [dChars, List.map_nil, List.nil_append]
    cases rest with
    | nil => rfl
    | cons c cs =>
      have hc : c.isDigit = false := hrest c rfl
      rw [takeDigits, hc]
      simp
  | cons d ds ih =>
    have hd : d < 10 := hds d (by simp)
    have hdig := digitChar_isDigit d hd
    have htn := digitChar_toNat d hd
    show takeDigits (digitChar d :: (dChars ds ++ rest)) = (d :: ds, rest)
    rw [takeDigits, hdig]
    simp only [if_true]
    rw [ih (fun x hx => hds x (by simp [hx]))]
    have hdn : (digitChar d).toNat - 48 = d := by omega
    rw [hdn]

/-- `takeDigits` consumes a whole rendered digit list. -/
theorem takeDigits_dChars (ds : List Nat) (hds : ∀ d ∈ ds, d < 10) :
    takeDigits (dChars ds) = (ds, []) := by
  have h := takeDigits_dChars_append ds [] hds (fun c hc => by cases hc)
  simpa using h

/-- Parsing a plain integer rendering. -/
theorem etherChars_plain_int (ds : List Nat) (hlt : ∀ d ∈ ds, d < 10)
    (hne : ds ≠ []) (hv0 : digitsVal ds ≠ 0) :
    etherChars (dChars ds) = some (digitsVal ds * 10 ^ 18) := by
  have hno : dChars ds ≠ ['0'] := by
    intro h
    have hds0 : ds = [0] := by
      cases ds with
      | nil => simp [dChars] at h
      | cons d tl =>
        cases tl with
        | nil =>
          simp [dChars] at h
          have hd : d < 10 := hlt d (by simp)
          have htn := digitChar_toNat d hd
          rw [h] at htn
          have : ('0').toNat = 48 := by decide
          rw [this] at htn
          have : d = 0 := by omega
          rw [this]
        | cons e tl2 => simp [dChars] at h
    rw [hds0] at hv0
    exact hv0 rfl
  rw [etherChars, if_neg hno, takeDigits_dChars ds hlt]
  dsimp only
  rw [if_neg hne]

/-- Parsing a plain rendering with a decimal point and nonempty integer part. -/
theorem etherChars_plain_dot (pre suf : List Nat) (hpre : pre ≠ []) (hsuf : suf ≠ [])
    (hlt : ∀ d ∈ pre ++ suf, d < 10) (hlen : suf.length ≤ 18) :
    etherChars (dChars pre ++ '.' :: dChars suf)
      = some (digitsVal (pre ++ suf) * 10 ^ (18 - suf.length)) := by
  have hpre0 : 0 < pre.length := List.length_pos.mpr hpre
  have hsuf0 : 0 < suf.length := List.length_pos.mpr hsuf
  have hno : dChars pre ++ '.' :: dChars suf ≠ ['0'] := by
    intro h
    have := congrArg List.length h
    simp [dChars] at this
    omega
  have hTD : takeDigits (dChars pre ++ '.' :: dChars suf) = (pre, '.' :: dChars suf) :=
    takeDigits_dChars_append pre ('.' :: dChars suf)
      (fun d hd => hlt d (by simp [hd]))
      (fun c hc => by
        rw [List.head?_cons] at hc
        cases hc
        decide)
  have hTD2 : takeDigits (dChars suf) = (suf, []) :=
    takeDigits_dChars suf (fun d hd => hlt d (by simp [hd]))
  rw [etherChars, if_neg hno, hTD]
  dsimp only
  rw [if_neg hpre]
  rw [if_pos rfl, hTD2]
  dsimp only
  rw [if_neg (by omega : ¬ (suf.length = 0 ∨ 18 < suf.length))]

/-- Parsing a plain rendering below one: `0.` then zero padding and digits. -/
theorem etherChars_plain_small (F : List Nat) (hF : F ≠ [])
    (hlt : ∀ d ∈ F, d < 10) (hlen : F.length ≤ 18) :
    etherChars ('0' :: '.' :: dChars F)
      = some (digitsVal F * 10 ^ (18 - F.length)) := by
  have hF0 : 0 < F.length := List.length_pos.mpr hF
  have hno : ('0' :: '.' :: dChars F) ≠ ['0'] := by
    intro h
    simp at h
  have h1 : ('0').isDigit = true := by decide
  have h2 : ('.').isDigit = false := by decide
  have h3 : ('0').toNat = 48 := by decide
  have hTD0 : takeDigits ('0' :: '.' :: dChars F) = ([0], '.' :: dChars F) := by
    rw [takeDigits, takeDigits, h2]
    simp [h1, h3]
  have hTD2 : takeDigits (dChars F) = (F, []) := takeDigits_dChars F hlt
  rw [etherChars, if_neg hno, hTD0]
  dsimp only
  rw [if_neg (by simp : ¬ ([0] : List Nat) = [])]
  rw [if_pos rfl, hTD2]
  dsimp only
  rw [if_neg (by omega : ¬ (F.length = 0 ∨ 18 < F.length))]
  have hz : ([0] : List Nat) ++ F = List.replicate 1 0 ++ F := rfl
  rw [hz, digitsVal_replicate_zero]

/-- Parsing a scientific rendering with a bare integer mantissa. -/
theorem etherChars_sci_int (M K : List Nat) (hM : ∀ d ∈ M, d < 10) (hMne : M ≠ [])
    (hK : ∀ k ∈ K, k < 10) (hKne : K ≠ []) (hKle : digitsVal K ≤ 18) :
    etherChars (dChars M ++ 'E' :: '-' :: dChars K)
      = some (digitsVal M * 10 ^ (18 - digitsVal K)) := by
  have hM0 : 0 < M.length := List.length_pos.mpr hMne
  have hK0 : 0 < K.length := List.length_pos.mpr hKne
  have hno : dChars M ++ 'E' :: '-' :: dChars K ≠ ['0'] := by
    intro h
    have := congrArg List.length h
    simp [dChars] at this
    omega
  have hTD : takeDigits (dChars M ++ 'E' :: '-' :: dChars K)
      = (M, 'E' :: '-' :: dChars K) :=
    takeDigits_dChars_append M ('E' :: '-' :: dChars K) hM
      (fun c hc => by
        rw [List.head?_cons] at hc
        cases hc
        decide)
  have hTD2 : takeDigits (dChars K) = (K, []) := takeDigits_dChars K hK
  rw [etherChars, if_neg hno, hTD]
  dsimp only
  rw [if_neg hMne]
  rw [if_neg (by decide : ¬ ('E' = '.')), if_pos rfl]
  rw [if_pos rfl, parseExp, hTD2]
  dsimp only
  rw [if_pos rfl]
  rw [if_neg (by push_neg; exact ⟨hKne, by omega⟩ : ¬ (K = [] ∨ 18 < digitsVal K + 0))]
  norm_num

/-- Parsing a scientific rendering with a dotted mantissa. -/
theorem etherChars_sci_dot (M1 M2 K : List Nat) (hM1 : M1 ≠ []) (hM2 : M2 ≠ [])
    (hM : ∀ d ∈ M1 ++ M2, d < 10) (hK : ∀ k ∈ K, k < 10) (hKne : K ≠ [])
    (hguard : digitsVal K + M2.length ≤ 18) :
    etherChars (dChars M1 ++ '.' :: (dChars M2 ++ 'E' :: '-' :: dChars K))
      = some (digitsVal (M1 ++ M2) * 10 ^ (18 - (digitsVal K + M2.length))) := by
  have hM10 : 0 < M1.length := List.length_pos.mpr hM1
  have hM20 : 0 < M2.length := List.length_pos.mpr hM2
  have hno : dChars M1 ++ '.' :: (dChars M2 ++ 'E' :: '-' :: dChars K) ≠ ['0'] := by
    intro h
    have := congrArg List.length h
    simp [dChars] at this
    omega
  have hTD : takeDigits (dChars M1 ++ '.' :: (dChars M2 ++ 'E' :: '-' :: dChars K))
      = (M1, '.' :: (dChars M2 ++ 'E' :: '-' :: dChars K)) :=
    takeDigits_dChars_append M1 _ (fun d hd => hM d (by simp [hd]))
      (fun c hc => by
        rw [List.head?_cons] at hc
        cases hc
        decide)
  have hTD2 : takeDigits (dChars M2 ++ 'E' :: '-' :: dChars K)
      = (M2, 'E' :: '-' :: dChars K) :=
    takeDigits_dChars_append M2 _ (fun d hd => hM d (by simp [hd]))
      (fun c hc => by
        rw [List.head?_cons] at hc
        cases hc
        decide)
  have hTD3 : takeDigits (dChars K) = (K, []) := takeDigits_dChars K hK
  rw [etherChars, if_neg hno, hTD]
  dsimp only
  rw [if_neg hM1]
  rw [if_pos rfl, hTD2]
  dsimp only
  rw [if_pos rfl]
  rw [if_pos rfl, parseExp, hTD3]
  dsimp only
  rw [if_pos rfl]
  rw [if_neg (by push_neg; exact ⟨hKne, by omega⟩ : ¬ (K = [] ∨ 18 < digitsVal K + M2.length))]

/-- Round trip through the `Decimal` rendering of `C * 10^(-negE)` ethers:
the emitted string parses back to the exact wei value `C * 10^(18 - negE)`. -/
theorem etherChars_renderCoeff (C negE : Nat) (hC0 : C ≠ 0) (hne18 : negE ≤ 18) :
    etherChars (renderCoeff C negE) = some (C * 10 ^ (18 - negE)) := by
  have hdsval : digitsVal (natDigits C) = C := digitsVal_natDigits C
  have hdslt : ∀ d ∈ natDigits C, d < 10 := natDigits_lt10 C
  have hdsne : natDigits C ≠ [] := natDigits_ne_nil C
  have hnd0 : 0 < (natDigits C).length := List.length_pos.mpr hdsne
  rw [renderCoeff]
  by_cases h1 : negE = 0
  · rw [if_pos h1]
    rw [etherChars_plain_int (natDigits C) hdslt hdsne (by rw [hdsval]; exact hC0)]
    rw [hdsval, h1]
  · rw [if_neg h1]
    by_cases h2 : negE ≤ (natDigits C).length + 5
    · rw [if_pos h2]
      by_cases h3 : negE < (natDigits C).length
      · rw [if_pos h3]
        have htlen : ((natDigits C).take ((natDigits C).length - negE)).length
            = (natDigits C).length - negE := by
          rw [List.length_take]
          omega
        have hpre : (natDigits C).take ((natDigits C).length - negE) ≠ [] := by
          intro hcon
          rw [hcon] at htlen
          simp at htlen
          omega
        have hsuflen : ((natDigits C).drop ((natDigits C).length - negE)).length
            = negE := by
          rw [List.length_drop]
          omega
        have hsuf : (natDigits C).drop ((natDigits C).length - negE) ≠ [] := by
          intro hcon
          rw [hcon] at hsuflen
          simp at hsuflen
          omega
        have happ : (natDigits C).take ((natDigits C).length - negE)
            ++ (natDigits C).drop ((natDigits C).length - negE) = natDigits C :=
          List.take_append_drop _ _
        rw [etherChars_plain_dot _ _ hpre hsuf (by rw [happ]; exact hdslt)
          (by rw [hsuflen]; omega)]
        rw [happ, hsuflen, hdsval]
      · rw [if_neg h3]
        have hFne : List.replicate (negE - (natDigits C).length) 0
            ++ natDigits C ≠ [] := by
          simp [hdsne]
        have hFlt : ∀ d ∈ List.replicate (negE - (natDigits C).length) 0
            ++ natDigits C, d < 10 := by
          intro d hd
          rw [List.mem_append] at hd
          rcases hd with hd | hd
          · have := List.eq_of_mem_replicate hd
            omega
          · exact hdslt d hd
        have hFlen : (List.replicate (negE - (natDigits C).length) 0
            ++ natDigits C).length = negE := by
          simp
          omega
        rw [etherChars_plain_small _ hFne hFlt (by rw [hFlen]; omega)]
        rw [hFlen, digitsVal_replicate_zero, hdsval]
    · rw [if_neg h2]
      have hKval : digitsVal (natDigits (negE + 1 - (natDigits C).length))
          = negE + 1 - (natDigits C).length := digitsVal_natDigits _
      have hKlt := natDigits_lt10 (negE + 1 - (natDigits C).length)
      have hKne := natDigits_ne_nil (negE + 1 - (natDigits C).length)
      by_cases h4 : (natDigits C).length = 1
      · rw [if_pos h4]
        rw [etherChars_sci_int _ _ hdslt hdsne hKlt hKne (by rw [hKval]; omega)]
        rw [hdsval, hKval, h4]
        have hx : negE + 1 - 1 = negE := by omega
        rw [hx]
      · rw [if_neg h4]
        have hM1 : (natDigits C).take 1 ≠ [] := by
          intro hcon
          have hlen := congrArg List.length hcon
          rw [List.length_take] at hlen
          simp only [List.length_nil] at hlen
          omega
        have hM2len : ((natDigits C).drop 1).length = (natDigits C).length - 1 :=
          List.length_drop _ _
        have hM2 : (natDigits C).drop 1 ≠ [] := by
          intro hcon
          rw [hcon] at hM2len
          simp at hM2len
          omega
        have happ : (natDigits C).take 1 ++ (natDigits C).drop 1 = natDigits C :=
          List.take_append_drop _ _
        have hginner : digitsVal (natDigits (negE + 1 - (natDigits C).length))
            + ((natDigits C).drop 1).length = negE := by
          rw [hKval, hM2len]
          omega
        have hshape : (dChars ((natDigits C).take 1)
              ++ '.' :: dChars ((natDigits C).drop 1))
              ++ 'E' :: '-' :: dChars (natDigits (negE + 1 - (natDigits C).length))
            = dChars ((natDigits C).take 1)
              ++ '.' :: (dChars ((natDigits C).drop 1)
                ++ 'E' :: '-' :: dChars (natDigits (negE + 1 - (natDigits C).length))) := by
          simp [List.append_assoc]
        rw [hshape]
        rw [etherChars_sci_dot _ _ _ hM1 hM2 (by rw [happ]; exact hdslt) hKlt hKne
          (by rw [hginner]; exact hne18)]
        rw [happ, hginner, hdsval]

/-- The full round trip: every rendered `valueEther` string parses back to the
exact wei value it came from — the decimal rendering loses no precision. -/
theorem fromWei_roundTrip (v : Nat) : etherStrToWei (fromWeiEther v) = some v := by
  show etherChars (fromWeiChars v) = some v
  by_cases hv : v = 0
  · subst hv
    rfl
  · have hex : (stripTrail 18 v).1 * 10 ^ (stripTrail 18 v).2 = v := stripTrail_exact 18 v
    have hle : (stripTrail 18 v).2 ≤ 18 := stripTrail_le 18 v
    have hC0 : (stripTrail 18 v).1 ≠ 0 := by
      intro h
      rw [h] at hex
      simp at hex
      exact hv hex.symm
    rw [fromWeiChars, if_neg hv]
    rw [etherChars_renderCoeff _ _ hC0 (by omega)]
    have hx : 18 - (18 - (stripTrail 18 v).2) = (stripTrail 18 v).2 := by omega
    rw [hx, hex]

/-- C4: extraction yields exactly one record per input transaction, in input
order, each record carrying the transaction's fields with `valueEther` the
rendering of `valueWei / 10^18`; that rendering is computed by exact
arbitrary-precision decimal arithmetic and loses no precision — every
rendered string parses back to the original wei value — and
`valueWei = 1500000000000000000` renders as `"1.5"`. -/
theorem extract_one_record_per_tx_exact (b : RawBlock) :
    (extract b).map (fun r =>
        (r.hash, r.blockNumber, r.valueEther, r.blockTimestamp))
      = b.transactions.map (fun tx =>
        (tx.hash, tx.blockNumber, fromWeiEther tx.valueWei, b.timestamp))
    ∧ (∀ v : Nat, etherStrToWei (fromWeiEther v) = some v)
    ∧ fromWeiEther 1500000000000000000 = "1.5" := by
  refine ⟨?_, fromWei_roundTrip, ?_⟩
  · simp [extract, recordOfTx]
  · decide
